import Mathlib

/-!
Shallow embedding of the CSV ingestion/standardization/merge pipeline in
`src/pages/7_Bulk_Upload_CSV.py` (column normalizer, schema aligner,
base-file appender, upload loop), together with theorems settling the
frozen claims about it.

Tables are modelled as a list of column names plus a list of rows, each row
a list of cells; a cell is `Option String` (`none` = missing/NaN).  File
contents are modelled as `List Char`.
-/

namespace BulkUpload

/-! ## Column normalizer: `standardize_columns` -/

/-- Python `str.strip()` whitespace class (the characters relevant here). -/
def isPySpace (c : Char) : Bool :=
  c = ' ' ∨ c = '\t' ∨ c = '\n' ∨ c = '\r' ∨ c = '\x0b' ∨ c = '\x0c'

/-- Characters of the regex class `[0-9a-zA-Z_]`. -/
def isWordChar (c : Char) : Bool :=
  ('0' ≤ c ∧ c ≤ '9') ∨ ('a' ≤ c ∧ c ≤ 'z') ∨ ('A' ≤ c ∧ c ≤ 'Z') ∨ c = '_'

/-- Worker for run collapsing: `inRun` records whether the previous kept
character position was inside a run of `p`-characters (so further
`p`-characters are dropped instead of emitting another `rep`). -/
def collapseAux (p : Char → Bool) (rep : Char) : Bool → List Char → List Char
  | _, [] => []
  | inRun, c :: cs =>
    if p c then
      if inRun then collapseAux p rep true cs
      else rep :: collapseAux p rep true cs
    else c :: collapseAux p rep false cs

/-- `re.sub(r"X+", rep, s)` for a character class `X`: every maximal run of
characters satisfying `p` is replaced by the single character `rep`. -/
def collapseRuns (p : Char → Bool) (rep : Char) (l : List Char) : List Char :=
  collapseAux p rep false l

/-- Drop the characters satisfying `p` from both ends (Python `strip`). -/
def stripEnds (p : Char → Bool) (l : List Char) : List Char :=
  ((l.dropWhile p).reverse.dropWhile p).reverse

/-- The `_clean` helper of `standardize_columns`:
`c.strip().lower()`, then `\s+ -> _`, then `[^0-9a-zA-Z_]+ -> _`, then
`_+ -> _` and `strip("_")`, with fallback `"col"` for an empty result. -/
def cleanChars (l : List Char) : List Char :=
  let l := stripEnds isPySpace l
  let l := l.map Char.toLower
  let l := collapseRuns isPySpace '_' l
  let l := collapseRuns (fun c => ¬ isWordChar c) '_' l
  let l := collapseRuns (fun c => c = '_') '_' l
  stripEnds (fun c => c = '_') l

def cleanName (s : String) : String :=
  let l := cleanChars s.data
  if l = [] then "col" else ⟨l⟩

/-- The `seen` dictionary and uniquifying loop of `standardize_columns`:
first occurrence of a cleaned name is kept, the n-th repeat (n ≥ 1) becomes
`name_n`. -/
def uniquify : List String → List (String × Nat) → List String
  | [], _ => []
  | c :: cs, seen =>
    match seen.lookup c with
    | none => c :: uniquify cs ((c, 0) :: seen)
    | some n =>
      (c ++ "_" ++ toString (n + 1)) ::
        uniquify cs (seen.map (fun p => if p.1 = c then (p.1, n + 1) else p))

/-- `standardize_columns`: clean every raw name, then make the result
unique left-to-right by suffixing an occurrence counter. -/
def standardize_columns (cols : List String) : List String :=
  uniquify (cols.map cleanName) []

/-! ## Generic column names of the no-header mode (`read_one_csv`) -/

/-- Decimal digits of a positive position index, least significant last
(the rendering used by the f-string `col_{i+1}`). -/
def natDecimal (n : Nat) : List Char :=
  if h : n < 10 then [Char.ofNat (48 + n)]
  else natDecimal (n / 10) ++ [Char.ofNat (48 + n % 10)]
  decreasing_by exact Nat.div_lt_self (by omega) (by omega)

/-- `[f"col_{i+1}" for i in range(N)]`. -/
def genericNames (N : Nat) : List String :=
  (List.range N).map (fun i => ⟨'c' :: 'o' :: 'l' :: '_' :: natDecimal (i + 1)⟩)

/-- The column-naming step of `read_one_csv` in no-header mode: generic
names are assigned and then passed through `standardize_columns`. -/
def readNoHeaderCols (N : Nat) : List String :=
  standardize_columns (genericNames N)

/-! ## Tables, reindexing and the schema aligners -/

/-- A cell: `none` models a missing value (NaN). -/
abbrev Cell := Option String

/-- In-memory table: named columns and rows of cells.  Well-formed tables
have `cols.Nodup` and every row of length `cols.length`. -/
structure Table where
  cols : List String
  rows : List (List Cell)
deriving DecidableEq, Repr

/-- Value of column `c` in a row laid out by `cols`; a column absent from
`cols` reads as missing (this is how `DataFrame.reindex` fills new
columns with NaN). -/
def rowLookup (cols : List String) (r : List Cell) (c : String) : Cell :=
  match (cols.zip r).lookup c with
  | some v => v
  | none => none

/-- `df.reindex(columns=target)` at the level of one row. -/
def reindexRow (target : List String) (cols : List String) (r : List Cell) :
    List Cell :=
  target.map (rowLookup cols r)

/-- `df.reindex(columns=target)`. -/
def Table.reindex (t : Table) (target : List String) : Table :=
  ⟨target, t.rows.map (reindexRow target t.cols)⟩

/-- Python `sorted` on strings (lexicographic).  The relation `¬ b < a` is
the total order `a ≤ b` on strings. -/
def sortedStrings (l : List String) : List String :=
  l.insertionSort (fun a b => ¬ b < a)

/-- `sorted(set(...))` applied to the concatenation of column lists. -/
def sortedUnion (ls : List (List String)) : List String :=
  sortedStrings ls.flatten.dedup

/-- `align_union`: reindex every table to the sorted union of all column
sets and concatenate the rows (`pd.concat(..., ignore_index=True)`). -/
def align_union (dfs : List Table) : Table :=
  let all_cols := sortedUnion (dfs.map Table.cols)
  ⟨all_cols, (dfs.map (fun d => (d.reindex all_cols).rows)).flatten⟩

/-- `align_intersection`: intersect all column sets starting from the
first table; an empty intersection yields the explicitly empty table
`pd.DataFrame()` (zero rows, zero columns).  Column selection `d[common]`
is expressed through `reindex`; `common` is contained in every table's
columns, where the two agree. -/
def align_intersection (dfs : List Table) : Table :=
  match dfs with
  | [] => ⟨[], []⟩
  | d :: ds =>
    let common :=
      sortedStrings ((ds.foldl (fun acc t => acc.filter (· ∈ t.cols)) d.cols).dedup)
    if common.isEmpty then ⟨[], []⟩
    else ⟨common, ((d :: ds).map (fun t => (t.reindex common).rows)).flatten⟩

/-- `DataFrame.empty`: some axis has length zero. -/
def Table.isEmptyTable (t : Table) : Bool :=
  t.rows.length = 0 ∨ t.cols.length = 0

/-- The combine section of the page: a single upload passes through, more
are aligned according to the chosen mode. -/
def combineUploads (useUnion : Bool) (dfs : List Table) : Table :=
  match dfs with
  | [d] => d
  | _ => if useUnion then align_union dfs else align_intersection dfs

/-- The `combined.empty` check after combining: the warning shown instead
of crashing when the result is empty. -/
def combineWarning (t : Table) : Option String :=
  if t.isEmptyTable then
    some "Combined result is empty (no common columns). Consider using Union of columns."
  else none

/-! ## Base-file appender: in-memory dedup step -/

/-- `drop_duplicates(keep="first")` with a key projection (the `subset=`
argument): an item is kept iff its key was not seen earlier. -/
def ddAux {α β : Type} [DecidableEq α] (key : β → α) (seen : List α) :
    List β → List β
  | [] => []
  | x :: xs =>
    if key x ∈ seen then ddAux key seen xs
    else x :: ddAux key (key x :: seen) xs

/-- The dedup block of `append_to_base_csv`: tag base rows with
`__is_base=True` and incoming rows with `False`, concatenate,
`drop_duplicates(subset=cols, keep="first")`, keep the non-base survivors,
drop the marker and reindex back to `cols`. -/
def dedupAgainstBase (cols : List String) (base new : List (List Cell)) :
    List (List Cell) :=
  let marker := base.map (fun r => (r, true)) ++ new.map (fun r => (r, false))
  let marker := ddAux Prod.fst [] marker
  let dedup_new := (marker.filter (fun p => p.2 = false)).map Prod.fst
  dedup_new.map (reindexRow cols cols)

structure AppendResult where
  written : List (List Cell)
  rows_before : Nat
  rows_appended : Nat
deriving DecidableEq, Repr

/-- In-memory part of `append_to_base_csv` for an existing, non-empty base
file (`base` is the parsed base table, its columns already standardized):
align both tables to the sorted union of columns, optionally dedup the
incoming rows against the base, and report the rows that get appended
together with the returned counters. -/
def append_to_base_csv (base incoming : Table)
    (dedup_against_base : Bool) : AppendResult :=
  let cols := sortedUnion [base.cols, incoming.cols]
  let baseA := base.reindex cols
  let new_aligned := incoming.reindex cols
  let surviving :=
    if dedup_against_base then dedupAgainstBase cols baseA.rows new_aligned.rows
    else new_aligned.rows
  ⟨surviving, base.rows.length, surviving.length⟩

/-- Modelled from the spec: the stable first-occurrence-wins dedup the
spec describes for the appender — keep an incoming row iff it is not an
exact duplicate of an existing base row or of an earlier incoming row
already kept.  Used only as the comparison point for the refinement claim
about `dedupAgainstBase`. -/
def specKeptAux (base : List (List Cell)) :
    List (List Cell) → List (List Cell) → List (List Cell)
  | _, [] => []
  | kept, r :: rs =>
    if r ∈ base ∨ r ∈ kept then specKeptAux base kept rs
    else r :: specKeptAux base (kept ++ [r]) rs

def specKept (base incoming : List (List Cell)) : List (List Cell) :=
  specKeptAux base [] incoming

/-! ## Base-file appender: on-disk byte level -/

/-- Split a file's characters at every `'\n'`; `n` newlines yield `n + 1`
segments (how a CSV reader sees physical lines). -/
def splitNl : List Char → List (List Char)
  | [] => [[]]
  | c :: cs =>
    let r := splitNl cs
    if c = '\n' then [] :: r else (c :: r.headI) :: r.tail

/-- Bytes written by `to_csv` for a list of rendered rows: every row is
followed by a line terminator. -/
def csvBody (lns : List (List Char)) : List Char :=
  (lns.map (· ++ ['\n'])).flatten

/-- `safe_ensure_trailing_newline`: a non-empty file whose last byte is
neither `'\n'` nor `'\r'` gets a `'\n'` appended; an absent/empty file is
left alone.  (`[]` models an absent or empty file.) -/
def safe_ensure_trailing_newline (file : List Char) : List Char :=
  match file.getLast? with
  | none => file
  | some c => if c = '\n' ∨ c = '\r' then file else file ++ ['\n']

/-- File-level effect of `append_to_base_csv`: an absent/empty base is
created with a header line, otherwise the trailing newline is ensured and
the surviving rows are appended without a header. -/
def appendToBaseFile (file : List Char) (headerLine : List Char)
    (lns : List (List Char)) : List Char :=
  if file.isEmpty then csvBody (headerLine :: lns)
  else safe_ensure_trailing_newline file ++ csvBody lns

/-- Data rows seen when re-reading the file: non-blank physical lines,
minus the header line. -/
def countRows (file : List Char) : Nat :=
  ((splitNl file).filter (fun l => ¬ l.isEmpty)).length - 1

/-! ## Upload loop -/

/-- One uploaded file: its name and the outcome of `read_one_csv` on it
(the parse itself is the external CSV library; a malformed file surfaces
as `Except.error` with the exception text). -/
structure Upload where
  name : String
  parsed : Except String Table

/-- `df.drop_duplicates()` over whole rows, first occurrence kept. -/
def dropDupRows (t : Table) : Table :=
  ⟨t.cols, ddAux id [] t.rows⟩

/-- `df_one[src_col] = name`: overwrite the source column if present,
otherwise add it as the last column, constant over all rows. -/
def addSourceColumn (srcCol nm : String) (t : Table) : Table :=
  if srcCol ∈ t.cols then
    ⟨t.cols,
      t.rows.map (fun r =>
        (t.cols.zip r).map (fun p => if p.1 = srcCol then some nm else p.2))⟩
  else ⟨t.cols ++ [srcCol], t.rows.map (fun r => r ++ [some nm])⟩

/-- Per-file success pipeline inside the `try` block. -/
def processOne (withinDedup addSrc : Bool) (srcCol nm : String) (t : Table) :
    Table :=
  let t := if withinDedup then dropDupRows t else t
  if addSrc then addSourceColumn srcCol nm t else t

/-- `st.error` text for one unreadable file. -/
def errorMessage (nm msg : String) : String :=
  "Failed to read " ++ nm ++ ": " ++ msg

structure BatchResult where
  dfs : List Table
  names : List String
  errors : List String
deriving DecidableEq

/-- The upload loop: every file is tried; a failure records an error
naming the file and the loop continues with the next file. -/
def processUploads (withinDedup addSrc : Bool) (srcCol : String) :
    List Upload → BatchResult
  | [] => ⟨[], [], []⟩
  | f :: fs =>
    let rest := processUploads withinDedup addSrc srcCol fs
    match f.parsed with
    | .ok t =>
      ⟨processOne withinDedup addSrc srcCol f.name t :: rest.dfs,
        f.name :: rest.names, rest.errors⟩
    | .error e => ⟨rest.dfs, rest.names, errorMessage f.name e :: rest.errors⟩

/-! ## Lemmas about the column normalizer -/

theorem dropWhile_eq_self_of_forall {p : Char → Bool} {l : List Char}
    (h : ∀ c ∈ l, p c = false) : l.dropWhile p = l := by
  cases l with
  | nil => rfl
  | cons c cs =>
    rw [List.dropWhile_cons_of_neg]
    simp [h c (by simp)]

theorem stripEnds_eq_self_of_forall {p : Char → Bool} {l : List Char}
    (h : ∀ c ∈ l, p c = false) : stripEnds p l = l := by
  unfold stripEnds
  rw [dropWhile_eq_self_of_forall h, dropWhile_eq_self_of_forall, List.reverse_reverse]
  intro c hc
  exact h c (List.mem_reverse.mp hc)

theorem collapseAux_eq_self_of_forall {p : Char → Bool} {rep : Char} {b : Bool}
    {l : List Char} (h : ∀ c ∈ l, p c = false) :
    collapseAux p rep b l = l := by
  induction l generalizing b with
  | nil => rfl
  | cons c cs ih =>
    unfold collapseAux
    simp [h c (by simp), ih (fun d hd => h d (by simp [hd]))]

theorem collapseAux_cons (p : Char → Bool) (rep : Char) (b : Bool) (c : Char)
    (cs : List Char) :
    collapseAux p rep b (c :: cs) =
      if p c then
        (if b then collapseAux p rep true cs else rep :: collapseAux p rep true cs)
      else c :: collapseAux p rep false cs := by
  cases b <;> rfl

theorem collapseAux_underscore_eq_self {l : List Char} {b : Bool}
    (hch : l.Chain' (fun a b => ¬ (a = '_' ∧ b = '_')))
    (hb : b = true → ∀ c, l.head? = some c → ¬ c = '_') :
    collapseAux (fun c => c = '_') '_' b l = l := by
  induction l generalizing b with
  | nil => rfl
  | cons c cs ih =>
    rw [List.chain'_cons'] at hch
    rw [collapseAux_cons]
    by_cases hc : c = '_'
    · have hbf : b = false := by
        cases b with
        | false => rfl
        | true => exact absurd hc (hb rfl c rfl)
      subst hbf
      subst hc
      simp only [decide_eq_true_eq, Bool.false_eq_true, if_false]
      rw [if_pos trivial]
      congr 1
      refine ih hch.2 (fun _ d hd hd' => (hch.1 d ?_) ⟨rfl, hd'⟩)
      exact hd
    · simp only [hc, decide_eq_true_eq, if_false]
      congr 1
      exact ih hch.2 (fun h => absurd h (by decide))

theorem head?_dropWhile {p : Char → Bool} {l : List Char} {c : Char}
    (h : (l.dropWhile p).head? = some c) : p c = false := by
  induction l with
  | nil => simp [List.dropWhile] at h
  | cons x xs ih =>
    rw [List.dropWhile_cons] at h
    split at h
    · exact ih h
    · simp_all

theorem head?_reverse_dropWhile_reverse {p : Char → Bool} {x : List Char}
    {c : Char} (h : ((x.reverse.dropWhile p).reverse).head? = some c) :
    x.head? = some c := by
  obtain ⟨t, ht⟩ := List.dropWhile_suffix (l := x.reverse) p
  have hx : x = (x.reverse.dropWhile p).reverse ++ t.reverse := by
    have h2 := congrArg List.reverse ht
    rw [List.reverse_append, List.reverse_reverse] at h2
    exact h2.symm
  rw [hx]
  cases hsep : (x.reverse.dropWhile p).reverse with
  | nil => rw [hsep] at h; simp at h
  | cons d ds =>
    rw [hsep] at h
    simp only [List.cons_append, List.head?_cons] at h ⊢
    exact h

theorem head?_stripEnds {p : Char → Bool} {l : List Char} {c : Char}
    (h : (stripEnds p l).head? = some c) : p c = false := by
  unfold stripEnds at h
  exact head?_dropWhile (head?_reverse_dropWhile_reverse h)

theorem getLast?_stripEnds {p : Char → Bool} {l : List Char} {c : Char}
    (h : (stripEnds p l).getLast? = some c) : p c = false := by
  unfold stripEnds at h
  rw [List.getLast?_reverse] at h
  exact head?_dropWhile h

/-- The name-level facts C9 lives on: a cleaned or suffixed name is
non-empty and never starts with an underscore. -/
def goodName (s : String) : Prop :=
  s.data ≠ [] ∧ ∀ c, s.data.head? = some c → ¬ c = '_'

theorem cleanName_good (s : String) : goodName (cleanName s) := by
  by_cases h : cleanChars s.data = []
  · have hc : cleanName s = "col" := by unfold cleanName; simp [h]
    rw [hc]
    refine ⟨by decide, fun c hcc => ?_⟩
    have h1 : 'c' = c := by simpa using hcc
    simp [← h1]
  · have hcn : cleanName s = ⟨cleanChars s.data⟩ := by unfold cleanName; simp [h]
    rw [hcn]
    refine ⟨h, fun c hc => ?_⟩
    have hc' : (stripEnds (fun c => c = '_')
        (collapseRuns (fun c => c = '_') '_'
          (collapseRuns (fun c => ¬ isWordChar c) '_'
            (collapseRuns isPySpace '_'
              ((stripEnds isPySpace s.data).map Char.toLower))))).head? = some c := hc
    simpa using head?_stripEnds hc'

theorem goodName_append_suffix {s : String} (hs : goodName s) (t : String) :
    goodName (s ++ t) := by
  obtain ⟨hne, hh⟩ := hs
  constructor
  · rw [String.data_append]
    simp [hne]
  · intro c hc
    rw [String.data_append] at hc
    cases hd : s.data with
    | nil => exact absurd hd hne
    | cons d ds =>
      rw [hd] at hc
      simp only [List.cons_append, List.head?_cons, Option.some.injEq] at hc
      subst hc
      exact hh d (by rw [hd]; rfl)

theorem uniquify_good {names : List String} {seen : List (String × Nat)}
    (h : ∀ c ∈ names, goodName c) : ∀ n ∈ uniquify names seen, goodName n := by
  induction names generalizing seen with
  | nil => intro n hn; simp [uniquify] at hn
  | cons c cs ih =>
    intro n hn
    unfold uniquify at hn
    split at hn
    · rcases List.mem_cons.mp hn with rfl | hn'
      · exact h n (by simp)
      · exact ih (fun d hd => h d (by simp [hd])) n hn'
    · rcases List.mem_cons.mp hn with rfl | hn'
      · exact goodName_append_suffix
          (goodName_append_suffix (h c (by simp)) _) _
      · exact ih (fun d hd => h d (by simp [hd])) n hn'

/-! ## Claim theorems: the column normalizer -/

/-- C1 (failing input): on `["a", "a", "a_1"]` the occurrence-counter
suffixing of `standardize_columns` produces `["a", "a_1", "a_1"]`, whose
names are NOT pairwise distinct — the uniqueness the function's own
docstring promises is violated. -/
theorem standardize_columns_not_unique :
    standardize_columns ["a", "a", "a_1"] = ["a", "a_1", "a_1"] ∧
      ¬ (standardize_columns ["a", "a", "a_1"]).Nodup := by
  exact ⟨by decide, by decide⟩

/-- C2 (failing input): `standardize_columns` is not idempotent — on the
output `["a", "a_1", "a_1"]` for input `["a", "a", "a_1"]` a second run
re-suffixes the repeated `"a_1"` into `"a_1_1"`. -/
theorem standardize_columns_not_idempotent :
    standardize_columns (standardize_columns ["a", "a", "a_1"]) ≠
      standardize_columns ["a", "a", "a_1"] := by
  decide

/-- C9: every name produced by `standardize_columns` is non-empty and does
not start with an underscore (leading underscores are stripped, empty
results fall back to `"col"`), hence never equals the internal dedup
marker column `"__is_base"` used by `append_to_base_csv`. -/
theorem standardized_names_never_marker (cols : List String) (n : String)
    (h : n ∈ standardize_columns cols) :
    n ≠ "" ∧ n.data.head? ≠ some '_' ∧ n ≠ "__is_base" := by
  have hg : goodName n :=
    uniquify_good (fun c hc => by
      obtain ⟨s, _, rfl⟩ := List.mem_map.mp hc
      exact cleanName_good s) n h
  obtain ⟨hne, hh⟩ := hg
  refine ⟨?_, ?_, ?_⟩
  · intro he
    apply hne
    rw [he]
  · intro he
    exact hh '_' he rfl
  · intro he
    subst he
    exact hh '_' (by decide) rfl

/-- Witness for C9 at the concrete input `["!!"]`, whose single
standardized name is the fallback `"col"`. -/
theorem standardized_names_never_marker_witness :
    "col" ∈ standardize_columns ["!!"] ∧
      ("col" ≠ "" ∧ "col".data.head? ≠ some '_' ∧ "col" ≠ "__is_base") :=
  ⟨by decide, standardized_names_never_marker ["!!"] "col" (by decide)⟩

/-! ## Lemmas about the generated positional names -/

def digitChars : List Char := ['0', '1', '2', '3', '4', '5', '6', '7', '8', '9']

theorem natDecimal_mem_digitChars : ∀ n : Nat, ∀ c ∈ natDecimal n, c ∈ digitChars := by
  intro n
  induction n using Nat.strong_induction_on with
  | _ n ih =>
    intro c hc
    rw [natDecimal] at hc
    split at hc
    · next h =>
      simp only [List.mem_singleton] at hc
      subst hc
      interval_cases n <;> decide
    · next h =>
      rcases List.mem_append.mp hc with h1 | h2
      · exact ih (n / 10) (Nat.div_lt_self (by omega) (by omega)) c h1
      · simp only [List.mem_singleton] at h2
        subst h2
        have hm : n % 10 < 10 := Nat.mod_lt _ (by omega)
        revert hm
        generalize n % 10 = d
        intro hm
        interval_cases d <;> decide

theorem natDecimal_ne_nil (n : Nat) : natDecimal n ≠ [] := by
  rw [natDecimal]
  split <;> simp

/-- Decimal value of a digit string: left inverse of `natDecimal`. -/
def valOfDigits (l : List Char) : Nat :=
  l.foldl (fun a c => 10 * a + (c.toNat - 48)) 0

theorem valOfDigits_append_singleton (l : List Char) (c : Char) :
    valOfDigits (l ++ [c]) = 10 * valOfDigits l + (c.toNat - 48) := by
  simp [valOfDigits, List.foldl_append]

theorem toNat_ofNat_digit : ∀ d : Nat, d < 10 → (Char.ofNat (48 + d)).toNat = 48 + d := by
  decide

theorem valOfDigits_natDecimal : ∀ n : Nat, valOfDigits (natDecimal n) = n := by
  intro n
  induction n using Nat.strong_induction_on with
  | _ n ih =>
    rw [natDecimal]
    split
    · next h =>
      have ht := toNat_ofNat_digit n h
      simp [valOfDigits, ht]
    · next h =>
      rw [valOfDigits_append_singleton,
        ih (n / 10) (Nat.div_lt_self (by omega) (by omega))]
      have hm : n % 10 < 10 := Nat.mod_lt _ (by omega)
      rw [toNat_ofNat_digit _ hm]
      omega

theorem natDecimal_injective : Function.Injective natDecimal := by
  intro a b h
  have ha := valOfDigits_natDecimal a
  rw [h, valOfDigits_natDecimal] at ha
  exact ha.symm

theorem map_id_of_forall {α : Type} {f : α → α} :
    ∀ {l : List α}, (∀ a ∈ l, f a = a) → l.map f = l := by
  intro l h
  induction l with
  | nil => rfl
  | cons a l ih => simp [h a (by simp), ih (fun b hb => h b (by simp [hb]))]

theorem digit_facts : ∀ c ∈ digitChars,
    isPySpace c = false ∧ Char.toLower c = c ∧ isWordChar c = true ∧ ¬ c = '_' := by
  decide

theorem chain'_no_underscore {ds : List Char} (h : ∀ c ∈ ds, ¬ c = '_') :
    ds.Chain' (fun a b => ¬ (a = '_' ∧ b = '_')) := by
  induction ds with
  | nil => exact List.chain'_nil
  | cons c cs ih =>
    refine List.chain'_cons'.mpr ⟨fun y _ hy => h c (by simp) hy.1,
      ih (fun d hd => h d (by simp [hd]))⟩

theorem stripEnds_eq_self_of_ends {p : Char → Bool} {l : List Char}
    (hh : ∀ c, l.head? = some c → p c = false)
    (hl : ∀ c, l.getLast? = some c → p c = false) : stripEnds p l = l := by
  unfold stripEnds
  have h1 : l.dropWhile p = l := by
    cases l with
    | nil => rfl
    | cons c cs =>
      rw [List.dropWhile_cons_of_neg]
      simp [hh c rfl]
  rw [h1]
  have h2 : l.reverse.dropWhile p = l.reverse := by
    cases hr : l.reverse with
    | nil => rfl
    | cons d ds =>
      rw [List.dropWhile_cons_of_neg]
      have hd : l.getLast? = some d := by
        rw [← List.head?_reverse, hr]
        rfl
      simp [hl d hd]
  rw [h2, List.reverse_reverse]

/-- The fixed-point computation behind C10: a `col_<digits>` name passes
through every stage of `_clean` unchanged. -/
theorem cleanChars_generic {ds : List Char} (hne : ds ≠ [])
    (hds : ∀ c ∈ ds, c ∈ digitChars) :
    cleanChars ('c' :: 'o' :: 'l' :: '_' :: ds) = 'c' :: 'o' :: 'l' :: '_' :: ds := by
  have hall : ∀ c ∈ ('c' :: 'o' :: 'l' :: '_' :: ds),
      isPySpace c = false ∧ Char.toLower c = c ∧ isWordChar c = true := by
    intro c hc
    simp only [List.mem_cons] at hc
    rcases hc with rfl | rfl | rfl | rfl | hc
    · exact ⟨by decide, by decide, by decide⟩
    · exact ⟨by decide, by decide, by decide⟩
    · exact ⟨by decide, by decide, by decide⟩
    · exact ⟨by decide, by decide, by decide⟩
    · obtain ⟨h1, h2, h3, _⟩ := digit_facts c (hds c hc)
      exact ⟨h1, h2, h3⟩
  have hchain : ('c' :: 'o' :: 'l' :: '_' :: ds).Chain'
      (fun a b => ¬ (a = '_' ∧ b = '_')) := by
    refine List.chain'_cons'.mpr ⟨by simp, ?_⟩
    refine List.chain'_cons'.mpr ⟨by simp, ?_⟩
    refine List.chain'_cons'.mpr ⟨by simp, ?_⟩
    refine List.chain'_cons'.mpr ⟨?_, ?_⟩
    · intro y hy
      intro hcon
      exact (digit_facts y (hds y (List.mem_of_mem_head? hy))).2.2.2 hcon.2
    · exact chain'_no_underscore
        (fun c hc => (digit_facts c (hds c hc)).2.2.2)
  show stripEnds (fun c => c = '_')
      (collapseAux (fun c => c = '_') '_' false
        (collapseAux (fun c => ¬ isWordChar c) '_' false
          (collapseAux isPySpace '_' false
            ((stripEnds isPySpace ('c' :: 'o' :: 'l' :: '_' :: ds)).map Char.toLower)))) =
    'c' :: 'o' :: 'l' :: '_' :: ds
  rw [stripEnds_eq_self_of_forall (fun c hc => (hall c hc).1)]
  rw [map_id_of_forall (fun c hc => (hall c hc).2.1)]
  rw [collapseAux_eq_self_of_forall (p := isPySpace)
    (fun c hc => (hall c hc).1)]
  rw [collapseAux_eq_self_of_forall (p := fun c => ¬ isWordChar c)
    (fun c hc => by simp [(hall c hc).2.2])]
  rw [collapseAux_underscore_eq_self hchain (fun h => absurd h (by decide))]
  refine stripEnds_eq_self_of_ends (fun c hc => by simp at hc; simp [← hc]) ?_
  intro c hc
  have hlast : ('c' :: 'o' :: 'l' :: '_' :: ds).getLast? = ds.getLast? := by
    cases ds with
    | nil => exact absurd rfl hne
    | cons d ds' => simp [List.getLast?_cons_cons]
  rw [hlast] at hc
  have hmem : c ∈ ds := by
    cases hg : ds.getLast? with
    | none => rw [hg] at hc; exact absurd hc (by simp)
    | some d =>
      rw [hg] at hc
      obtain rfl : d = c := by simpa using hc
      cases ds with
      | nil => simp [List.getLast?] at hg
      | cons e es =>
        have : d = (e :: es).getLast (by simp) := by
          have h5 := List.getLast?_eq_getLast_of_ne_nil (l := e :: es) (by simp)
          rw [hg] at h5
          simpa using h5
        rw [this]
        exact List.getLast_mem _
  simp [(digit_facts c (hds c hmem)).2.2.2]

theorem cleanName_generic {i : Nat} :
    cleanName ⟨'c' :: 'o' :: 'l' :: '_' :: natDecimal (i + 1)⟩ =
      ⟨'c' :: 'o' :: 'l' :: '_' :: natDecimal (i + 1)⟩ := by
  unfold cleanName
  rw [show (String.mk ('c' :: 'o' :: 'l' :: '_' :: natDecimal (i + 1))).data =
    'c' :: 'o' :: 'l' :: '_' :: natDecimal (i + 1) from rfl]
  rw [cleanChars_generic (natDecimal_ne_nil (i + 1))
    (natDecimal_mem_digitChars (i + 1))]
  simp

theorem uniquify_eq_self {names : List String} :
    ∀ {seen : List (String × Nat)}, names.Nodup →
      (∀ c ∈ names, seen.lookup c = none) → uniquify names seen = names := by
  induction names with
  | nil => intro seen _ _; rfl
  | cons c cs ih =>
    intro seen hnd hlk
    unfold uniquify
    rw [hlk c (by simp)]
    show c :: uniquify cs ((c, 0) :: seen) = c :: cs
    congr 1
    refine ih (List.nodup_cons.mp hnd).2 (fun d hd => ?_)
    have hdc : ¬ (d == c) = true := by
      simp only [beq_iff_eq]
      intro he
      exact (List.nodup_cons.mp hnd).1 (he ▸ hd)
    rw [List.lookup_cons]
    simp only [hdc, if_false]
    exact hlk d (by simp [hd])

theorem genericNames_nodup (N : Nat) : (genericNames N).Nodup := by
  unfold genericNames
  refine List.Nodup.map ?_ (List.nodup_range N)
  intro i j hij
  have hdata : 'c' :: 'o' :: 'l' :: '_' :: natDecimal (i + 1) =
      'c' :: 'o' :: 'l' :: '_' :: natDecimal (j + 1) := congrArg String.data hij
  have : natDecimal (i + 1) = natDecimal (j + 1) := by
    simpa using hdata
  have := natDecimal_injective this
  omega

/-- C10: the generated positional names `col_1 .. col_N` of the no-header
mode are fixed points of `standardize_columns` — the normalization pass in
`read_one_csv` leaves them exactly as generated, in position order. -/
theorem readNoHeaderCols_fixed_point (N : Nat) :
    readNoHeaderCols N = genericNames N ∧
      standardize_columns (genericNames N) = genericNames N := by
  have hmap : (genericNames N).map cleanName = genericNames N := by
    refine map_id_of_forall (fun a ha => ?_)
    unfold genericNames at ha
    obtain ⟨i, _, rfl⟩ := List.mem_map.mp ha
    exact cleanName_generic
  have hstd : standardize_columns (genericNames N) = genericNames N := by
    unfold standardize_columns
    rw [hmap]
    exact uniquify_eq_self (genericNames_nodup N) (fun c _ => rfl)
  exact ⟨hstd, hstd⟩

/-! ## Lemmas about reindexing and the aligners -/

theorem lookup_zip_not_mem {cols : List String} {c : String} :
    ∀ {r : List Cell}, c ∉ cols → (cols.zip r).lookup c = none := by
  induction cols with
  | nil => intro r _; rfl
  | cons k ks ih =>
    intro r h
    cases r with
    | nil => rfl
    | cons v vs =>
      rw [List.zip_cons_cons, List.lookup_cons]
      have hck : ¬ (c == k) = true := by
        simp only [beq_iff_eq]
        intro he
        exact h (by simp [he])
      simp only [hck, if_false]
      exact ih (fun hc => h (by simp [hc]))

theorem rowLookup_not_mem {cols : List String} {r : List Cell} {c : String}
    (h : c ∉ cols) : rowLookup cols r c = none := by
  unfold rowLookup
  rw [lookup_zip_not_mem h]

theorem lookup_zip_map {c : String} {f : String → Cell} :
    ∀ {cols : List String}, cols.Nodup → c ∈ cols →
      (cols.zip (cols.map f)).lookup c = some (f c) := by
  intro cols
  induction cols with
  | nil => intro _ hc; simp at hc
  | cons k ks ih =>
    intro hnd hc
    rw [List.map_cons, List.zip_cons_cons, List.lookup_cons]
    by_cases hck : c = k
    · subst hck
      simp
    · have : ¬ (c == k) = true := by simp [hck]
      simp only [this, if_false]
      exact ih (List.nodup_cons.mp hnd).2 (by
        rcases List.mem_cons.mp hc with h | h
        · exact absurd h hck
        · exact h)

theorem rowLookup_map {cols : List String} (hnd : cols.Nodup) {c : String}
    (hc : c ∈ cols) (f : String → Cell) :
    rowLookup cols (cols.map f) c = f c := by
  unfold rowLookup
  rw [lookup_zip_map hnd hc]

theorem reindexRow_reindexRow {cols cs : List String} (hnd : cols.Nodup)
    (r : List Cell) :
    reindexRow cols cols (reindexRow cols cs r) = reindexRow cols cs r := by
  unfold reindexRow
  exact List.map_congr_left (fun c hc => rowLookup_map hnd hc _)

theorem mem_sortedStrings {c : String} {l : List String} :
    c ∈ sortedStrings l ↔ c ∈ l :=
  (List.perm_insertionSort _ l).mem_iff

theorem sortedStrings_nodup {l : List String} (h : l.Nodup) :
    (sortedStrings l).Nodup :=
  (List.perm_insertionSort _ l).symm.nodup h

theorem sortedUnion_nodup (ls : List (List String)) :
    (sortedUnion ls).Nodup :=
  sortedStrings_nodup (List.nodup_dedup _)

/-- C6: union alignment of two tables preserves the total row count, its
column set is the set union of both column sets, and a column a table
lacked reads as missing in every row contributed by that table. -/
theorem align_union_shape (T1 T2 : Table) :
    (align_union [T1, T2]).rows.length = T1.rows.length + T2.rows.length
    ∧ (align_union [T1, T2]).cols.toFinset = T1.cols.toFinset ∪ T2.cols.toFinset
    ∧ (∀ c, c ∉ T1.cols → ∀ r ∈ T1.rows,
        rowLookup (align_union [T1, T2]).cols
          (reindexRow (align_union [T1, T2]).cols T1.cols r) c = none) := by
  refine ⟨?_, ?_, ?_⟩
  · simp [align_union, Table.reindex]
  · ext c
    simp [align_union, sortedUnion, mem_sortedStrings, List.mem_dedup]
  · intro c hc r _
    have hnd : ((align_union [T1, T2]).cols).Nodup := sortedUnion_nodup _
    by_cases hmem : c ∈ (align_union [T1, T2]).cols
    · rw [show reindexRow (align_union [T1, T2]).cols T1.cols r =
          ((align_union [T1, T2]).cols).map (rowLookup T1.cols r) from rfl]
      rw [rowLookup_map hnd hmem]
      exact rowLookup_not_mem hc
    · exact rowLookup_not_mem hmem

/-- Witness for C6 at two concrete one-column tables: the row coming from
the first table reads as missing in the column only the second table has. -/
theorem align_union_shape_witness :
    rowLookup (align_union [⟨["a"], [[some "1"]]⟩, ⟨["b"], [[some "2"]]⟩]).cols
      (reindexRow (align_union [⟨["a"], [[some "1"]]⟩, ⟨["b"], [[some "2"]]⟩]).cols
        ["a"] [some "1"]) "b" = none :=
  (align_union_shape ⟨["a"], [[some "1"]]⟩ ⟨["b"], [[some "2"]]⟩).2.2 "b"
    (by decide) [some "1"] (by decide)

theorem foldl_filter_mem :
    ∀ (ds : List Table) (acc : List String) (c : String),
      c ∈ ds.foldl (fun acc t => acc.filter (· ∈ t.cols)) acc ↔
        c ∈ acc ∧ ∀ t ∈ ds, c ∈ t.cols := by
  intro ds
  induction ds with
  | nil => simp
  | cons d ds ih =>
    intro acc c
    simp only [List.foldl_cons]
    rw [ih]
    simp only [List.mem_filter, decide_eq_true_eq, List.mem_cons]
    constructor
    · rintro ⟨⟨h1, h2⟩, h3⟩
      exact ⟨h1, fun t ht => by
        rcases ht with rfl | ht
        · exact h2
        · exact h3 t ht⟩
    · rintro ⟨h1, h2⟩
      exact ⟨⟨h1, h2 d (Or.inl rfl)⟩, fun t ht => h2 t (Or.inr ht)⟩

/-- C7: when no column is shared by every table, intersection alignment
returns the explicitly empty zero-column table (total, no exception), and
the combine section's emptiness check fires, producing the warning that
suggests Union instead. -/
theorem align_intersection_disjoint_safe (d : Table) (ds : List Table)
    (h : ∀ c, ¬ (c ∈ d.cols ∧ ∀ t ∈ ds, c ∈ t.cols)) :
    align_intersection (d :: ds) = ⟨[], []⟩ ∧
      combineWarning (align_intersection (d :: ds)) =
        some "Combined result is empty (no common columns). Consider using Union of columns." := by
  have hempty : ds.foldl (fun acc t => acc.filter (· ∈ t.cols)) d.cols = [] := by
    rw [List.eq_nil_iff_forall_not_mem]
    intro c hc
    rw [foldl_filter_mem] at hc
    exact h c hc
  have hres : align_intersection (d :: ds) = ⟨[], []⟩ := by
    have hstep : align_intersection (d :: ds) =
        (let common := sortedStrings
          ((ds.foldl (fun acc t => acc.filter (· ∈ t.cols)) d.cols).dedup);
        if common.isEmpty then (⟨[], []⟩ : Table)
        else ⟨common, ((d :: ds).map (fun t => (t.reindex common).rows)).flatten⟩) :=
      rfl
    rw [hstep, hempty]
    rfl
  exact ⟨hres, by rw [hres]; rfl⟩

/-- Witness for C7 at two concrete tables with disjoint column sets. -/
theorem align_intersection_disjoint_safe_witness :
    align_intersection [⟨["a"], [[some "1"]]⟩, ⟨["b"], [[some "2"]]⟩] = ⟨[], []⟩ ∧
      combineWarning (align_intersection
        [⟨["a"], [[some "1"]]⟩, ⟨["b"], [[some "2"]]⟩]) =
        some "Combined result is empty (no common columns). Consider using Union of columns." :=
  align_intersection_disjoint_safe ⟨["a"], [[some "1"]]⟩ [⟨["b"], [[some "2"]]⟩]
    (by
      intro c hcon
      obtain ⟨h1, h2⟩ := hcon
      have hc : c = "a" := by simpa using h1
      subst hc
      have := h2 ⟨["b"], [[some "2"]]⟩ (by simp)
      simp at this)

/-! ## Lemmas about the dedup-against-base step -/

/-- The `seen` keys accumulated by `ddAux` while scanning a list. -/
def ddSeen {α β : Type} [DecidableEq α] (key : β → α) (seen : List α) :
    List β → List α
  | [] => seen
  | x :: xs =>
    if key x ∈ seen then ddSeen key seen xs
    else ddSeen key (key x :: seen) xs

theorem ddAux_cons {α β : Type} [DecidableEq α] (key : β → α) (seen : List α)
    (x : β) (xs : List β) :
    ddAux key seen (x :: xs) =
      if key x ∈ seen then ddAux key seen xs
      else x :: ddAux key (key x :: seen) xs := rfl

theorem ddSeen_cons {α β : Type} [DecidableEq α] (key : β → α) (seen : List α)
    (x : β) (xs : List β) :
    ddSeen key seen (x :: xs) =
      if key x ∈ seen then ddSeen key seen xs
      else ddSeen key (key x :: seen) xs := rfl

theorem ddAux_append {α β : Type} [DecidableEq α] (key : β → α)
    (xs ys : List β) :
    ∀ seen, ddAux key seen (xs ++ ys) =
      ddAux key seen xs ++ ddAux key (ddSeen key seen xs) ys := by
  induction xs with
  | nil => intro seen; rfl
  | cons x xs ih =>
    intro seen
    rw [List.cons_append, ddAux_cons, ddAux_cons, ddSeen_cons]
    by_cases h : key x ∈ seen
    · simp only [h, if_true]
      exact ih seen
    · simp only [h, if_false]
      rw [List.cons_append]
      congr 1
      exact ih _

theorem mem_ddSeen {α β : Type} [DecidableEq α] (key : β → α) :
    ∀ (xs : List β) (seen : List α) (a : α),
      a ∈ ddSeen key seen xs ↔ a ∈ seen ∨ ∃ x ∈ xs, key x = a := by
  intro xs
  induction xs with
  | nil => simp [ddSeen]
  | cons x xs ih =>
    intro seen a
    unfold ddSeen
    by_cases h : key x ∈ seen
    · rw [if_pos h, ih]
      constructor
      · rintro (ha | ⟨y, hy, rfl⟩)
        · exact Or.inl ha
        · exact Or.inr ⟨y, by simp [hy], rfl⟩
      · rintro (ha | ⟨y, hy, rfl⟩)
        · exact Or.inl ha
        · rcases List.mem_cons.mp hy with rfl | hy'
          · exact Or.inl h
          · exact Or.inr ⟨y, hy', rfl⟩
    · rw [if_neg h, ih]
      constructor
      · rintro (ha | ⟨y, hy, rfl⟩)
        · rcases List.mem_cons.mp ha with rfl | ha'
          · exact Or.inr ⟨x, by simp, rfl⟩
          · exact Or.inl ha'
        · exact Or.inr ⟨y, by simp [hy], rfl⟩
      · rintro (ha | ⟨y, hy, rfl⟩)
        · exact Or.inl (by simp [ha])
        · rcases List.mem_cons.mp hy with rfl | hy'
          · exact Or.inl (by simp)
          · exact Or.inr ⟨y, hy', rfl⟩

theorem mem_of_mem_ddAux {α β : Type} [DecidableEq α] {key : β → α} :
    ∀ {l : List β} {seen : List α} {x : β}, x ∈ ddAux key seen l → x ∈ l := by
  intro l
  induction l with
  | nil =>
    intro seen x h
    simp [ddAux] at h
  | cons y ys ih =>
    intro seen x h
    unfold ddAux at h
    split at h
    · exact List.mem_cons_of_mem _ (ih h)
    · rcases List.mem_cons.mp h with rfl | h'
      · simp
      · exact List.mem_cons_of_mem _ (ih h')

theorem ddAux_false_spec {b : List (List Cell)} :
    ∀ (rs kept seen : List (List Cell)),
      (∀ a, a ∈ seen ↔ a ∈ b ∨ a ∈ kept) →
      ((ddAux Prod.fst seen (rs.map (fun r => (r, false)))).filter
          (fun p => p.2 = false)).map Prod.fst = specKeptAux b kept rs := by
  intro rs
  induction rs with
  | nil => intro kept seen _; rfl
  | cons r rs ih =>
    intro kept seen hseen
    simp only [List.map_cons]
    unfold ddAux specKeptAux
    by_cases h : r ∈ seen
    · rw [if_pos h, if_pos ((hseen r).mp h)]
      exact ih kept seen hseen
    · rw [if_neg h, if_neg (fun hc => h ((hseen r).mpr hc))]
      rw [List.filter_cons_of_pos (by simp), List.map_cons]
      congr 1
      refine ih (kept ++ [r]) (r :: seen) (fun a => ?_)
      rw [List.mem_cons, hseen a]
      simp only [List.mem_append, List.mem_singleton]
      constructor
      · rintro (rfl | ha | ha)
        · exact Or.inr (Or.inr rfl)
        · exact Or.inl ha
        · exact Or.inr (Or.inl ha)
      · rintro (ha | ha | rfl)
        · exact Or.inr (Or.inl ha)
        · exact Or.inr (Or.inr ha)
        · exact Or.inl rfl

theorem specKeptAux_sub {base : List (List Cell)} :
    ∀ {rs kept x}, x ∈ specKeptAux base kept rs → x ∈ rs := by
  intro rs
  induction rs with
  | nil =>
    intro kept x h
    simp [specKeptAux] at h
  | cons r rs ih =>
    intro kept x h
    unfold specKeptAux at h
    split at h
    · exact List.mem_cons_of_mem _ (ih h)
    · rcases List.mem_cons.mp h with rfl | h'
      · simp
      · exact List.mem_cons_of_mem _ (ih h')

theorem specKeptAux_eq_nil {base : List (List Cell)} :
    ∀ {rs kept}, (∀ r ∈ rs, r ∈ base) → specKeptAux base kept rs = [] := by
  intro rs
  induction rs with
  | nil => intro kept _; rfl
  | cons r rs ih =>
    intro kept h
    unfold specKeptAux
    rw [if_pos (Or.inl (h r (by simp)))]
    exact ih (fun d hd => h d (by simp [hd]))

theorem dedupAgainstBase_eq_specKept {cols : List String}
    {b n : List (List Cell)} (hn : ∀ r ∈ n, reindexRow cols cols r = r) :
    dedupAgainstBase cols b n = specKept b n := by
  show (((ddAux Prod.fst []
      (b.map (fun r => (r, true)) ++ n.map (fun r => (r, false)))).filter
        (fun p => p.2 = false)).map Prod.fst).map (reindexRow cols cols) =
    specKeptAux b [] n
  rw [ddAux_append, List.filter_append, List.map_append]
  have hbase : ((ddAux Prod.fst [] (b.map (fun r => (r, true)))).filter
      (fun p => p.2 = false)) = [] := by
    rw [List.filter_eq_nil_iff]
    intro p hp
    obtain ⟨r, _, rfl⟩ := List.mem_map.mp (mem_of_mem_ddAux hp)
    simp
  rw [hbase]
  simp only [List.map_nil, List.nil_append]
  have hseen : ∀ a, a ∈ ddSeen Prod.fst [] (b.map (fun r => (r, true))) ↔
      a ∈ b ∨ a ∈ ([] : List (List Cell)) := by
    intro a
    rw [mem_ddSeen]
    simp only [List.not_mem_nil, false_or, or_false]
    constructor
    · rintro ⟨x, hx, rfl⟩
      obtain ⟨r, hr, rfl⟩ := List.mem_map.mp hx
      exact hr
    · intro ha
      exact ⟨(a, true), List.mem_map.mpr ⟨a, ha, rfl⟩, rfl⟩
  rw [ddAux_false_spec n [] _ hseen]
  exact map_id_of_forall (fun r hr => hn r (specKeptAux_sub hr))

/-- C3: with `dedup_against_base` set, the rows `append_to_base_csv`
appends are exactly those given by the spec's stable first-occurrence-wins
dedup over base-then-incoming (compared across the union-aligned columns);
in particular appending a table equal to the base appends zero rows. -/
theorem append_dedup_matches_spec (base incoming : Table) :
    (append_to_base_csv base incoming true).written =
      specKept (base.reindex (sortedUnion [base.cols, incoming.cols])).rows
        (incoming.reindex (sortedUnion [base.cols, incoming.cols])).rows
    ∧ (incoming = base →
        (append_to_base_csv base incoming true).rows_appended = 0) := by
  have hnd : (sortedUnion [base.cols, incoming.cols]).Nodup := sortedUnion_nodup _
  have hwr : (append_to_base_csv base incoming true).written =
      specKept (base.reindex (sortedUnion [base.cols, incoming.cols])).rows
        (incoming.reindex (sortedUnion [base.cols, incoming.cols])).rows := by
    show dedupAgainstBase (sortedUnion [base.cols, incoming.cols])
        (base.reindex (sortedUnion [base.cols, incoming.cols])).rows
        (incoming.reindex (sortedUnion [base.cols, incoming.cols])).rows = _
    refine dedupAgainstBase_eq_specKept (fun r hr => ?_)
    obtain ⟨r0, _, rfl⟩ := List.mem_map.mp hr
    exact reindexRow_reindexRow hnd r0
  refine ⟨hwr, fun he => ?_⟩
  subst he
  rw [show (append_to_base_csv incoming incoming true).rows_appended =
    (append_to_base_csv incoming incoming true).written.length from rfl]
  rw [hwr]
  rw [show specKept
      (incoming.reindex (sortedUnion [incoming.cols, incoming.cols])).rows
      (incoming.reindex (sortedUnion [incoming.cols, incoming.cols])).rows =
    specKeptAux
      (incoming.reindex (sortedUnion [incoming.cols, incoming.cols])).rows []
      (incoming.reindex (sortedUnion [incoming.cols, incoming.cols])).rows
    from rfl]
  rw [specKeptAux_eq_nil (fun r hr => hr)]
  rfl

/-- Witness for C3 at a concrete one-row base appended onto itself. -/
theorem append_dedup_matches_spec_witness :
    (append_to_base_csv ⟨["a"], [[some "1"]]⟩ ⟨["a"], [[some "1"]]⟩
      true).rows_appended = 0 :=
  (append_dedup_matches_spec ⟨["a"], [[some "1"]]⟩ ⟨["a"], [[some "1"]]⟩).2 rfl

/-! ## Lemmas about the on-disk byte level -/

theorem splitNl_cons_newline (cs : List Char) :
    splitNl ('\n' :: cs) = [] :: splitNl cs := rfl

theorem splitNl_cons_other {c : Char} (h : ¬ c = '\n') (cs : List Char) :
    splitNl (c :: cs) = (c :: (splitNl cs).headI) :: (splitNl cs).tail := by
  simp [splitNl, h]

theorem splitNl_line {l : List Char} (h : '\n' ∉ l) (rest : List Char) :
    splitNl (l ++ '\n' :: rest) = l :: splitNl rest := by
  induction l with
  | nil => simpa using splitNl_cons_newline rest
  | cons c cl ih =>
    have hc : ¬ c = '\n' := fun he => h (by simp [he])
    rw [List.cons_append, splitNl_cons_other hc,
      ih (fun hm => h (by simp [hm]))]
    rfl

theorem csvBody_cons (l : List Char) (ls : List (List Char)) :
    csvBody (l :: ls) = l ++ '\n' :: csvBody ls := by
  simp [csvBody]

theorem csvBody_append (a b : List (List Char)) :
    csvBody (a ++ b) = csvBody a ++ csvBody b := by
  simp [csvBody]

theorem csvBody_ne_nil {l : List Char} {ls : List (List Char)} :
    csvBody (l :: ls) ≠ [] := by
  rw [csvBody_cons]
  intro h
  have := congrArg List.length h
  simp at this

theorem splitNl_csvBody {lns : List (List Char)}
    (h : ∀ l ∈ lns, '\n' ∉ l) : splitNl (csvBody lns) = lns ++ [[]] := by
  induction lns with
  | nil => rfl
  | cons l ls ih =>
    rw [csvBody_cons, splitNl_line (h l (by simp))
      (csvBody ls), ih (fun d hd => h d (by simp [hd]))]
    rfl

theorem csvBody_getLast {lns : List (List Char)} (h : lns ≠ []) :
    (csvBody lns).getLast? = some '\n' := by
  induction lns with
  | nil => exact absurd rfl h
  | cons l ls ih =>
    cases ls with
    | nil =>
      show ((l ++ ['\n']) ++ csvBody []).getLast? = some '\n'
      rw [show csvBody [] = [] from rfl, List.append_nil]
      exact List.getLast?_concat _
    | cons m ms =>
      have hsp : csvBody (l :: m :: ms) = (l ++ ['\n']) ++ csvBody (m :: ms) := by
        simp [csvBody]
      rw [hsp, List.getLast?_append_of_ne_nil _ csvBody_ne_nil]
      exact ih (by simp)

theorem ensure_getLast :
    ∀ file : List Char, file ≠ [] →
      (safe_ensure_trailing_newline file).getLast? = some '\n' ∨
        (safe_ensure_trailing_newline file).getLast? = some '\r' := by
  intro file hne
  cases hg : file.getLast? with
  | none => exact absurd (List.getLast?_eq_none_iff.mp hg) hne
  | some c =>
    by_cases hc : c = '\n' ∨ c = '\r'
    · have : safe_ensure_trailing_newline file = file := by
        simp only [safe_ensure_trailing_newline, hg]
        simp [hc]
      rw [this, hg]
      rcases hc with rfl | rfl
      · exact Or.inl rfl
      · exact Or.inr rfl
    · have : safe_ensure_trailing_newline file = file ++ ['\n'] := by
        simp only [safe_ensure_trailing_newline, hg]
        simp [hc]
      rw [this, List.getLast?_concat]
      exact Or.inl rfl

theorem ensure_of_newline {file : List Char}
    (h : file.getLast? = some '\n') :
    safe_ensure_trailing_newline file = file := by
  simp only [safe_ensure_trailing_newline, h]
  simp

/-- C5: before rows are appended to a non-empty base file the on-disk
bytes are made to end with a line terminator, and two successive appends
of `k` and `m` rendered rows (no embedded newlines) onto a fresh base
yield a file that re-reads as exactly `k + m` data rows — no fusing of the
last row of the first append with the first row of the second. -/
theorem trailing_newline_safety (header : List Char)
    (klines mlines : List (List Char))
    (hh : header ≠ [] ∧ '\n' ∉ header)
    (hk : ∀ l ∈ klines, l ≠ [] ∧ '\n' ∉ l)
    (hm : ∀ l ∈ mlines, l ≠ [] ∧ '\n' ∉ l) :
    (∀ file : List Char, file ≠ [] →
      (safe_ensure_trailing_newline file).getLast? = some '\n' ∨
        (safe_ensure_trailing_newline file).getLast? = some '\r')
    ∧ countRows (appendToBaseFile (appendToBaseFile [] header klines)
        header mlines) = klines.length + mlines.length := by
  refine ⟨ensure_getLast, ?_⟩
  have hf1 : appendToBaseFile [] header klines = csvBody (header :: klines) := rfl
  have hf1ne : csvBody (header :: klines) ≠ [] := csvBody_ne_nil
  have hf2 : appendToBaseFile (csvBody (header :: klines)) header mlines =
      csvBody (header :: klines) ++ csvBody mlines := by
    unfold appendToBaseFile
    rw [if_neg (by simp [List.isEmpty_iff, hf1ne]),
      ensure_of_newline (csvBody_getLast (by simp))]
  rw [hf1, hf2, ← csvBody_append]
  unfold countRows
  rw [splitNl_csvBody (by
    intro l hl
    rcases List.mem_append.mp hl with hl | hl
    · rcases List.mem_cons.mp hl with rfl | hl'
      · exact hh.2
      · exact (hk l hl').2
    · exact (hm l hl).2)]
  rw [List.filter_append]
  rw [List.filter_eq_self.mpr (by
    intro l hl
    have hlne : l ≠ [] := by
      rcases List.mem_append.mp hl with hl | hl
      · rcases List.mem_cons.mp hl with rfl | hl'
        · exact hh.1
        · exact (hk l hl').1
      · exact (hm l hl).1
    simp [List.isEmpty_iff, hlne])]
  rw [show List.filter (fun l => ¬ l.isEmpty) [([] : List Char)] = [] from rfl]
  simp

/-- Witness for C5: a one-row append followed by another one-row append
re-reads as two rows. -/
theorem trailing_newline_safety_witness :
    countRows (appendToBaseFile (appendToBaseFile [] ['h'] [['a']])
      ['h'] [['b']]) = [['a']].length + [['b']].length :=
  (trailing_newline_safety ['h'] [['a']] [['b']] (by decide)
    (by decide) (by decide)).2

/-! ## The upload loop -/

/-- C8: the upload loop is exception-isolated per file — its outputs are
exactly the per-file results: a file whose parse fails contributes one
error message naming it (and nothing else), every other file is processed
normally, and no failure aborts the rest of the batch. -/
theorem upload_loop_isolates_failures (withinDedup addSrc : Bool)
    (srcCol : String) (files : List Upload) :
    (processUploads withinDedup addSrc srcCol files).dfs =
      files.filterMap (fun f =>
        match f.parsed with
        | .ok t => some (processOne withinDedup addSrc srcCol f.name t)
        | .error _ => none)
    ∧ (processUploads withinDedup addSrc srcCol files).names =
      files.filterMap (fun f =>
        match f.parsed with
        | .ok _ => some f.name
        | .error _ => none)
    ∧ (processUploads withinDedup addSrc srcCol files).errors =
      files.filterMap (fun f =>
        match f.parsed with
        | .ok _ => none
        | .error e => some (errorMessage f.name e)) := by
  induction files with
  | nil => exact ⟨rfl, rfl, rfl⟩
  | cons f fs ih =>
    obtain ⟨ih1, ih2, ih3⟩ := ih
    unfold processUploads
    cases hp : f.parsed with
    | ok t =>
      refine ⟨?_, ?_, ?_⟩ <;>
        simp [List.filterMap_cons, hp, ih1, ih2, ih3]
    | error e =>
      refine ⟨?_, ?_, ?_⟩ <;>
        simp [List.filterMap_cons, hp, ih1, ih2, ih3]

end BulkUpload
